import Mathlib

/-!
Shallow embedding of `zellij-picker` (src/src/main.rs), a terminal picker for
zellij sessions.  The embedding models, faithfully to the Rust source:

* the TUI state (`App`, `ListState`) and its transitions (`App.move_up`,
  `App.move_down`, `App.selected_session`, the key handler `step` extracted
  from `run_tui`'s match on key codes);
* the event loop (`runLoop`, a pure projection, and `loopT` / `run_tui_traced`,
  which additionally track IO effects and early returns of the `?` operator);
* `get_sessions` (parsing of `zellij list-sessions` output);
* `strip_ansi_codes` / `parse_name` (the regex `\x1B\[[0-?9;]*[mK]` scan and
  the split at the first " [");
* the `DeleteSession` dispatch arm of `main`.

Machine strings are modelled as Lean `String` / `List Char`; Rust's
`char::is_alphanumeric` is modelled by `Char.isAlphanum` and `str::trim`'s
whitespace by `Char.isWhitespace` (both agree on ASCII, which is all the
code paths at issue produce).
-/

namespace ZellijPicker

/-- Rust `c.is_alphanumeric() || c == '-' || c == '_'` from the
`KeyCode::Char(c)` arm of the input mode (main.rs line 283). -/
def isValidSessionChar (c : Char) : Bool :=
  c.isAlphanum || c = '-' || c = '_'

/-- Rust `str::trim` on the left: drop leading whitespace. -/
def trimLeftChars (l : List Char) : List Char :=
  l.dropWhile Char.isWhitespace

/-- Rust `str::trim` on the right: drop trailing whitespace. -/
def trimRightChars (l : List Char) : List Char :=
  (l.reverse.dropWhile Char.isWhitespace).reverse

/-- Rust `str::trim`: drop leading and trailing whitespace. -/
def rustTrim (l : List Char) : List Char :=
  trimRightChars (trimLeftChars l)

/-- Rust `input.trim().to_string()` at the `String` level. -/
def strTrim (s : String) : String :=
  ⟨rustTrim s.data⟩

/-- Rust `String::pop`: remove the last character (main.rs line 279). -/
def strPop (s : String) : String :=
  ⟨s.data.dropLast⟩

/-- ratatui `ListState`: only the selected index is relevant to the program. -/
structure ListState where
  selected : Option Nat
  deriving DecidableEq

/-- The `App` struct of main.rs (lines 21-26). -/
structure App where
  sessions : List String
  list_state : ListState
  new_session_input : Option String
  deriving DecidableEq

/-- `App::new` (main.rs lines 29-39): select index 0 when non-empty. -/
def App.new (sessions : List String) : App :=
  { sessions := sessions
    list_state := ⟨if sessions.isEmpty then none else some 0⟩
    new_session_input := none }

/-- `App::selected_session` (main.rs lines 43-48). -/
def App.selected_session (app : App) : Option String :=
  app.list_state.selected.bind fun i => app.sessions.get? i

/-- `App::move_up` (main.rs lines 50-61). -/
def App.move_up (app : App) : App :=
  if app.sessions.isEmpty then app
  else
    let i := app.list_state.selected.getD 0
    let next := if i = 0 then app.sessions.length - 1 else i - 1
    { app with list_state := ⟨some next⟩ }

/-- `App::move_down` (main.rs lines 63-70). -/
def App.move_down (app : App) : App :=
  if app.sessions.isEmpty then app
  else
    let i := app.list_state.selected.getD 0
    let next := (i + 1) % app.sessions.length
    { app with list_state := ⟨some next⟩ }

/-- The crossterm key codes the program distinguishes (all others fall into
the wildcard arms of the source and are represented by `OtherKey`). -/
inductive KeyCode where
  | Enter
  | Esc
  | Backspace
  | Char (c : Char)
  | Up
  | Down
  | OtherKey
  deriving DecidableEq

/-- crossterm events: key, resize, or anything else (mouse etc.). -/
inductive Event where
  | Key (k : KeyCode)
  | Resize
  | OtherEvent
  deriving DecidableEq

/-- `ExitAction` (main.rs lines 231-236). -/
inductive ExitAction where
  | AttachSession (name : String)
  | NewSession (name : Option String)
  | DeleteSession (name : String)
  | Quit
  deriving DecidableEq

/-- One key event of `run_tui`'s loop body (main.rs lines 262-314): either the
state is updated and the loop continues (`.inl`), or the loop breaks with an
`ExitAction` (`.inr`). -/
def step (app : App) (k : KeyCode) : App ⊕ ExitAction :=
  match app.new_session_input with
  | some input =>
    -- New session input mode (main.rs lines 264-290)
    match k with
    | .Enter =>
      let name := strTrim input
      if name = "" then .inl { app with new_session_input := none }
      else .inr (.NewSession (some name))
    | .Esc => .inl { app with new_session_input := none }
    | .Backspace => .inl { app with new_session_input := some (strPop input) }
    | .Char c =>
      if isValidSessionChar c then
        .inl { app with new_session_input := some (input.push c) }
      else .inl app
    | _ => .inl app
  | none =>
    -- Normal navigation mode (main.rs lines 292-313)
    match k with
    | .Esc => .inr .Quit
    | .Up => .inl app.move_up
    | .Down => .inl app.move_down
    | .Enter =>
      match app.selected_session with
      | some name => .inr (.AttachSession name)
      | none => .inl app
    | .Char c =>
      if c = 'q' then .inr .Quit
      else if c = 'k' then .inl app.move_up
      else if c = 'j' then .inl app.move_down
      else if c = 'd' then
        match app.selected_session with
        | some name => .inr (.DeleteSession name)
        | none => .inl app
      else if c = 'n' then .inl { app with new_session_input := some "" }
      else .inl app
    | _ => .inl app

/-- The event loop of `run_tui` projected onto its state transitions: the
events delivered by `event::read` drive `step`; non-key events only trigger a
redraw.  `none` means the supplied event list ran out before a decision. -/
def runLoop (app : App) : List Event → Option ExitAction
  | [] => none
  | e :: rest =>
    match e with
    | .Key k =>
      match step app k with
      | .inl a => runLoop a rest
      | .inr x => some x
    | _ => runLoop app rest

/-- Terminal effects issued by `run_tui` (main.rs lines 244-248 and 326-333),
in the order the source performs them. -/
inductive Eff where
  | enableRaw
  | enterAltScreen
  | drawFrame
  | disableRaw
  | leaveAltScreen
  deriving DecidableEq

/-- One iteration of the polling loop of `run_tui` as seen from outside:
either one of the fallible IO calls fails (`terminal.draw?`, `event::poll?`,
`event::read?`), or the poll times out, or an event is delivered. -/
inductive Tick where
  | drawErr
  | pollErr
  | pollTimeout
  | readErr
  | ev (e : Event)
  deriving DecidableEq

/-- The loop of `run_tui` (main.rs lines 256-321) with its effect trace.
`acc` is the trace so far; a failing `?` returns `.error` carrying the trace
at the moment of the early return.  `none` means the tick list ran out while
the loop was still running. -/
def loopT (acc : List Eff) (app : App) :
    List Tick → Option (Except (List Eff) (ExitAction × List Eff))
  | [] => none
  | t :: ts =>
    match t with
    | .drawErr => some (.error acc)
    | .pollErr => some (.error (acc ++ [Eff.drawFrame]))
    | .pollTimeout => loopT (acc ++ [Eff.drawFrame]) app ts
    | .readErr => some (.error (acc ++ [Eff.drawFrame]))
    | .ev e =>
      match e with
      | .Key k =>
        match step app k with
        | .inl a => loopT (acc ++ [Eff.drawFrame]) a ts
        | .inr x => some (.ok (x, acc ++ [Eff.drawFrame]))
      | _ => loopT (acc ++ [Eff.drawFrame]) app ts

/-- `run_tui` (main.rs lines 242-336) with its effect trace; `sessions` is the
list returned by `get_sessions()`.  Setup effects happen first; the `?` on a
failing draw/poll/read propagates the error immediately (skipping the cleanup
code after the loop); the cleanup (disable raw mode, leave alternate screen)
runs after the loop produced its action, and also on the `num == 0` fast
path. -/
def run_tui_traced (sessions : List String) (ticks : List Tick) :
    Option (Except (List Eff) (ExitAction × List Eff)) :=
  let setup := [Eff.enableRaw, Eff.enterAltScreen]
  if sessions.length ≠ 0 then
    match loopT setup (App.new sessions) ticks with
    | none => none
    | some (.error tr) => some (.error tr)
    | some (.ok (a, tr)) =>
      some (.ok (a, tr ++ [Eff.disableRaw, Eff.leaveAltScreen]))
  else
    some (.ok (.NewSession none, setup ++ [Eff.disableRaw, Eff.leaveAltScreen]))

/-- The outcome of `Command::output()` when the process could be spawned:
its exit status and (lossily decoded) standard output.  `Command::output()`
itself is modelled as `Option ProcOutput`, `none` being the `Err` case. -/
structure ProcOutput where
  status : Int
  stdout : String
  deriving DecidableEq

/-- Rust `str::lines`: split at newline characters (each line's trailing
carriage return, if any, is whitespace and removed by the subsequent trim). -/
def splitLines : List Char → List (List Char)
  | [] => [[]]
  | c :: cs =>
    if c = '\n' then [] :: splitLines cs
    else
      match splitLines cs with
      | [] => [[c]]
      | l :: ls => (c :: l) :: ls

/-- `get_sessions` (main.rs lines 77-95): the stdout of
`zellij list-sessions` split into trimmed non-empty lines; a failure to even
run the command gives the empty list.  The exit status of the command is
never inspected by the source. -/
def get_sessions (res : Option ProcOutput) : List String :=
  match res with
  | some out =>
    (((splitLines out.stdout.data).map rustTrim).filter (· ≠ [])).map
      fun l => String.mk l
  | none => []

/-- The character class `[0-?9;]` of the regex `\x1B\[[0-?9;]*[mK]`
(main.rs line 341): the range '0'-'?' already covers '9' and ';'. -/
def isCsiParam (c : Char) : Bool :=
  '0' ≤ c && c ≤ '?'

/-- Try to match the regex `\x1B\[[0-?9;]*[mK]` at the head of the list;
on success return the characters after the match.  The parameter class and
the final `m`/`K` are disjoint, so the greedy `*` is deterministic. -/
def csiTail (l : List Char) : Option (List Char) :=
  match l with
  | e :: b :: rest =>
    if e = '\x1B' && b = '[' then
      match rest.dropWhile isCsiParam with
      | c :: rest2 => if c = 'm' || c = 'K' then some rest2 else none
      | [] => none
    else none
  | _ => none

/-- `Regex::replace_all` with the empty replacement: scan left to right,
delete each leftmost non-overlapping match, otherwise keep the character and
move on.  Fuel-indexed for structural recursion; each step consumes at least
one character, so `fuel = l.length` suffices (`stripAnsiAux`). -/
def stripGo : Nat → List Char → List Char
  | _, [] => []
  | 0, l => l
  | fuel + 1, c :: cs =>
    match csiTail (c :: cs) with
    | some rest => stripGo fuel rest
    | none => c :: stripGo fuel cs

/-- `strip_ansi_codes` (main.rs lines 340-343) on character lists. -/
def stripAnsiAux (l : List Char) : List Char :=
  stripGo l.length l

/-- `strip_ansi_codes` (main.rs lines 340-343). -/
def strip_ansi_codes (s : String) : String :=
  ⟨stripAnsiAux s.data⟩

/-- Rust `input.split(" [").next().unwrap()`: the prefix of the string up to
(excluding) the first occurrence of the two-character pattern `" ["`, or the
whole string when the pattern does not occur. -/
def takeBeforeBracket : List Char → List Char
  | [] => []
  | [c] => [c]
  | c :: d :: cs =>
    if c = ' ' && d = '[' then []
    else c :: takeBeforeBracket (d :: cs)

/-- `parse_name` (main.rs lines 346-351) on character lists:
`strip_ansi_codes(input.split(" [").next().unwrap().trim())`. -/
def parse_name (l : List Char) : List Char :=
  stripAnsiAux (rustTrim (takeBeforeBracket l))

/-- `parse_name` (main.rs lines 346-351). -/
def parse_nameStr (s : String) : String :=
  ⟨parse_name s.data⟩

/-- Does the list contain an occurrence of the ANSI regex
`\x1B\[[0-?9;]*[mK]` (i.e. a match starting at some position)? -/
def hasCsi (l : List Char) : Bool :=
  (List.range l.length).any fun i => (csiTail (l.drop i)).isSome

/-- Does the list contain the two-character pattern `" ["` (the start of a
bracketed status suffix)? -/
def containsSB : List Char → Bool
  | [] => false
  | [_] => false
  | c :: d :: cs => (c = ' ' && d = '[') || containsSB (d :: cs)

/-- The check made at one position by `escOk`: if the suffix starts with an
escape character, the ANSI regex must match there. -/
def escCheck (s : List Char) : Bool :=
  if s.head? = some '\x1B' then (csiTail s).isSome else true

/-- Every escape character in the list begins a complete ANSI escape sequence
(a full match of the regex `\x1B\[[0-?9;]*[mK]`). -/
def escOk (l : List Char) : Bool :=
  (List.range l.length).all fun i => escCheck (l.drop i)

/-- The zellij subcommands `main` can spawn (main.rs lines 357-441). -/
inductive ZCmd where
  | killSession (name : String)
  | deleteSession (name : String)
  | attach (name : String)
  | newNamed (name : String)
  | newUnnamed
  deriving DecidableEq

/-- The `ExitAction::DeleteSession` arm of `main` (main.rs lines 378-425):
given the raw selected name and the results of the two `status()` calls
(`none` = the command could not be run, `some c` = it exited with code `c`),
return the commands spawned in order and the process exit code.  The match on
the kill result only prints; the delete command is spawned unconditionally
afterwards; a non-success of the delete step calls `std::process::exit(1)`,
otherwise `main` falls through and exits 0. -/
def dispatchDelete (rawName : String) (killRes delRes : Option Int) :
    List ZCmd × Nat :=
  let name := parse_nameStr rawName
  let cmds := [ZCmd.killSession name, ZCmd.deleteSession name]
  match delRes with
  | some c => if c = 0 then (cmds, 0) else (cmds, 1)
  | none => (cmds, 1)

/-- The invariant the input-mode buffer keeps: when present, it holds only
characters admitted by the validation in the `KeyCode::Char(c)` arm. -/
def inputOk (app : App) : Bool :=
  match app.new_session_input with
  | none => true
  | some b => b.data.all isValidSessionChar

/-- Drive `step` by a list of key events; when the loop breaks with a
decision, the state at the moment of the break is returned (it is the last
state the program held). -/
def stepKeys (app : App) : List KeyCode → App
  | [] => app
  | k :: ks =>
    match step app k with
    | .inl a => stepKeys a ks
    | .inr _ => app

section Theorems

/-- `step` in input mode, written out by key: Enter confirms or cancels,
Esc cancels, Backspace pops, a validated character is pushed, everything
else is ignored. -/
theorem step_input_eq (app : App) (buf : String) (k : KeyCode)
    (h : app.new_session_input = some buf) :
    step app k =
      match k with
      | .Enter =>
        if strTrim buf = "" then .inl { app with new_session_input := none }
        else .inr (.NewSession (some (strTrim buf)))
      | .Esc => .inl { app with new_session_input := none }
      | .Backspace => .inl { app with new_session_input := some (strPop buf) }
      | .Char c =>
        if isValidSessionChar c then
          .inl { app with new_session_input := some (buf.push c) }
        else .inl app
      | _ => .inl app := by
  cases k <;> simp [step, h]

/-- Claim C2: with an empty initial session list, `run_tui` skips the event
loop entirely (no frame is ever drawn, no event consumed, whatever the tick
stream holds) and decides `NewSession None`; setup and teardown still run. -/
theorem startup_empty_fast_path (ticks : List Tick) :
    run_tui_traced [] ticks =
      some (.ok (.NewSession none,
        [Eff.enableRaw, Eff.enterAltScreen, Eff.disableRaw, Eff.leaveAltScreen])) :=
  rfl

/-- Claim C3: while the new-session input mode is active, every key either
keeps looping with the selection and session list untouched, or breaks the
loop with a `NewSession (some _)` decision; the navigation keys `q`, `j`,
`k`, `d` are simply appended to the buffer. -/
theorem input_mode_absorbs (app : App) (buf : String) (k : KeyCode)
    (h : app.new_session_input = some buf) :
    (∀ a, step app k = .inl a →
      a.list_state = app.list_state ∧ a.sessions = app.sessions)
    ∧ (∀ x, step app k = .inr x → ∃ n, x = ExitAction.NewSession (some n))
    ∧ (∀ c, c ∈ ['q', 'j', 'k', 'd'] →
        step app (.Char c) =
          .inl { app with new_session_input := some (buf.push c) }) := by
  refine ⟨?_, ?_, ?_⟩
  · intro a ha
    rw [step_input_eq app buf k h] at ha
    cases k <;> simp at ha
    case Enter =>
      split at ha
      · cases ha; exact ⟨rfl, rfl⟩
      · cases ha
    case Esc => cases ha; exact ⟨rfl, rfl⟩
    case Backspace => cases ha; exact ⟨rfl, rfl⟩
    case Char c =>
      split at ha
      · cases ha; exact ⟨rfl, rfl⟩
      · cases ha; exact ⟨rfl, rfl⟩
    all_goals (cases ha; exact ⟨rfl, rfl⟩)
  · intro x hx
    rw [step_input_eq app buf k h] at hx
    cases k <;> simp at hx
    case Enter =>
      split at hx
      · cases hx
      · cases hx; exact ⟨strTrim buf, rfl⟩
    case Char c => split at hx <;> cases hx
  · intro c hc
    rw [step_input_eq app buf (.Char c) h]
    fin_cases hc <;> simp [isValidSessionChar]

/-- Claim C4: pressing Enter in input mode with a whitespace-only buffer
returns to navigation exactly as Esc does; with a non-blank buffer it breaks
the loop with `NewSession (some trimmed)`; buffer "work-1" gives
`NewSession (some "work-1")`. -/
theorem confirm_entry_correct (app : App) (buf : String)
    (h : app.new_session_input = some buf) :
    (strTrim buf = "" →
      step app .Enter = .inl { app with new_session_input := none }
      ∧ step app .Enter = step app .Esc)
    ∧ (strTrim buf ≠ "" →
      step app .Enter = .inr (.NewSession (some (strTrim buf))))
    ∧ (buf = "work-1" →
      step app .Enter = .inr (.NewSession (some "work-1"))) := by
  refine ⟨fun he => ?_, fun hne => ?_, fun hb => ?_⟩
  · rw [step_input_eq app buf .Enter h, step_input_eq app buf .Esc h]
    simp [he]
  · rw [step_input_eq app buf .Enter h]
    simp [hne]
  · subst hb
    rw [step_input_eq app "work-1" .Enter h]
    have : strTrim "work-1" = "work-1" := by decide
    rw [this]
    simp

/-- Claim C5: in input mode a typed character is appended exactly when it is
alphanumeric or `-` or `_`, and is silently dropped otherwise; consequently
the scenario `n`, `x`, `!`, `y`, Enter on a one-session list produces
`NewSession (some "xy")`. -/
theorem edit_buffer_validation :
    (∀ (app : App) (buf : String) (c : Char), app.new_session_input = some buf →
      (isValidSessionChar c = true →
        step app (.Char c) = .inl { app with new_session_input := some (buf.push c) })
      ∧ (isValidSessionChar c = false → step app (.Char c) = .inl app))
    ∧ runLoop (App.new ["alpha"])
        [.Key (.Char 'n'), .Key (.Char 'x'), .Key (.Char '!'),
         .Key (.Char 'y'), .Key .Enter]
      = some (.NewSession (some "xy")) := by
  refine ⟨fun app buf c h => ⟨fun hv => ?_, fun hv => ?_⟩, by decide⟩
  · rw [step_input_eq app buf (.Char c) h]; simp [hv]
  · rw [step_input_eq app buf (.Char c) h]; simp [hv]

/-- Claim C9: the `DeleteSession` dispatch always spawns `kill-session` then
`delete-session` on the normalized name, whatever the kill step returned, and
the process exit code is 0 exactly when the delete command exited 0. -/
theorem delete_dispatch_correct (rawName : String) (killRes delRes : Option Int) :
    (dispatchDelete rawName killRes delRes).1
      = [ZCmd.killSession (parse_nameStr rawName),
         ZCmd.deleteSession (parse_nameStr rawName)]
    ∧ ((dispatchDelete rawName killRes delRes).2 = 0 ↔ delRes = some 0) := by
  constructor
  · cases delRes with
    | none => rfl
    | some c =>
      simp only [dispatchDelete]
      split <;> rfl
  · cases delRes with
    | none => simp [dispatchDelete]
    | some c =>
      simp only [dispatchDelete, Option.some.injEq]
      split
      · simp_all
      · simp_all

/-- Witness for `input_mode_absorbs`: with buffer "ab", pressing 'q' appends
it instead of quitting. -/
theorem input_mode_absorbs_witness :
    step ⟨["alpha"], ⟨some 0⟩, some "ab"⟩ (.Char 'q')
      = .inl ⟨["alpha"], ⟨some 0⟩, some "abq"⟩ :=
  (input_mode_absorbs ⟨["alpha"], ⟨some 0⟩, some "ab"⟩ "ab" (.Char 'q') rfl).2.2 'q'
    (by decide)

/-- Witness for `confirm_entry_correct`: Enter on "work-1" confirms, Enter on
a whitespace-only buffer cancels. -/
theorem confirm_entry_correct_witness :
    step ⟨[], ⟨none⟩, some "work-1"⟩ .Enter = .inr (.NewSession (some "work-1"))
    ∧ step ⟨[], ⟨none⟩, some " "⟩ .Enter = .inl ⟨[], ⟨none⟩, none⟩ :=
  ⟨(confirm_entry_correct ⟨[], ⟨none⟩, some "work-1"⟩ "work-1" rfl).2.2 rfl,
   ((confirm_entry_correct ⟨[], ⟨none⟩, some " "⟩ " " rfl).1 (by decide)).1⟩

/-- Witness for `edit_buffer_validation`: '!' is rejected, the buffer stays
"x". -/
theorem edit_buffer_validation_witness :
    step ⟨[], ⟨none⟩, some "x"⟩ (.Char '!') = .inl ⟨[], ⟨none⟩, some "x"⟩ :=
  (edit_buffer_validation.1 ⟨[], ⟨none⟩, some "x"⟩ "x" '!' rfl).2 (by decide)

/-- `move_down` at a valid selection: increment modulo the list length. -/
theorem move_down_at (app : App) (j : Nat)
    (hsel : app.list_state.selected = some j) (hj : j < app.sessions.length) :
    App.move_down app
      = { app with list_state := ⟨some ((j + 1) % app.sessions.length)⟩ } := by
  have hne : app.sessions.isEmpty = false := by
    cases hs : app.sessions
    · rw [hs] at hj; simp at hj
    · simp [hs]
  simp [App.move_down, hne, hsel]

/-- The branch of `move_up` as a single modular decrement. -/
theorem up_idx (n j : Nat) (hj : j < n) :
    (if j = 0 then n - 1 else j - 1) = (j + (n - 1)) % n := by
  have hn : 0 < n := Nat.lt_of_le_of_lt (Nat.zero_le j) hj
  by_cases h0 : j = 0
  · subst h0
    simp [Nat.mod_eq_of_lt (Nat.sub_lt hn Nat.one_pos)]
  · rw [if_neg h0]
    have h1 : j + (n - 1) = (j - 1) + n := by omega
    rw [h1, Nat.add_mod_right, Nat.mod_eq_of_lt (by omega)]

/-- `move_up` at a valid selection: decrement modulo the list length. -/
theorem move_up_at (app : App) (j : Nat)
    (hsel : app.list_state.selected = some j) (hj : j < app.sessions.length) :
    App.move_up app
      = { app with list_state :=
            ⟨some ((j + (app.sessions.length - 1)) % app.sessions.length)⟩ } := by
  have hne : app.sessions.isEmpty = false := by
    cases hs : app.sessions
    · rw [hs] at hj; simp at hj
    · simp [hs]
  simp [App.move_up, hne, hsel, up_idx app.sessions.length j hj]

/-- Iterating `move_down` `k` times adds `k` to the selection modulo the
length, and never touches the session list or the input buffer. -/
theorem move_down_iter (k : Nat) :
    ∀ (app : App) (j : Nat), app.list_state.selected = some j →
      j < app.sessions.length →
      (App.move_down^[k] app).sessions = app.sessions
      ∧ (App.move_down^[k] app).new_session_input = app.new_session_input
      ∧ (App.move_down^[k] app).list_state.selected
          = some ((j + k) % app.sessions.length) := by
  induction k with
  | zero =>
    intro app j hsel hj
    simp [hsel, Nat.mod_eq_of_lt hj]
  | succ k ih =>
    intro app j hsel hj
    have hn : 0 < app.sessions.length := Nat.lt_of_le_of_lt (Nat.zero_le j) hj
    rw [Function.iterate_succ_apply, move_down_at app j hsel hj]
    obtain ⟨s1, s2, s3⟩ :=
      ih { app with list_state := ⟨some ((j + 1) % app.sessions.length)⟩ }
        ((j + 1) % app.sessions.length) rfl (Nat.mod_lt _ hn)
    refine ⟨s1, s2, ?_⟩
    rw [s3]
    show some (((j + 1) % app.sessions.length + k) % app.sessions.length) = _
    rw [Nat.mod_add_mod]
    have : j + 1 + k = j + (k + 1) := by omega
    rw [this]

/-- Iterating `move_up` `k` times adds `k * (length - 1)` to the selection
modulo the length, and never touches the session list or the input buffer. -/
theorem move_up_iter (k : Nat) :
    ∀ (app : App) (j : Nat), app.list_state.selected = some j →
      j < app.sessions.length →
      (App.move_up^[k] app).sessions = app.sessions
      ∧ (App.move_up^[k] app).new_session_input = app.new_session_input
      ∧ (App.move_up^[k] app).list_state.selected
          = some ((j + k * (app.sessions.length - 1)) % app.sessions.length) := by
  induction k with
  | zero =>
    intro app j hsel hj
    simp [hsel, Nat.mod_eq_of_lt hj]
  | succ k ih =>
    intro app j hsel hj
    have hn : 0 < app.sessions.length := Nat.lt_of_le_of_lt (Nat.zero_le j) hj
    rw [Function.iterate_succ_apply, move_up_at app j hsel hj]
    obtain ⟨s1, s2, s3⟩ :=
      ih { app with list_state :=
              ⟨some ((j + (app.sessions.length - 1)) % app.sessions.length)⟩ }
        ((j + (app.sessions.length - 1)) % app.sessions.length) rfl (Nat.mod_lt _ hn)
    refine ⟨s1, s2, ?_⟩
    rw [s3]
    show some (((j + (app.sessions.length - 1)) % app.sessions.length
          + k * (app.sessions.length - 1)) % app.sessions.length) = _
    rw [Nat.mod_add_mod]
    have : j + (app.sessions.length - 1) + k * (app.sessions.length - 1)
        = j + (k + 1) * (app.sessions.length - 1) := by
      rw [Nat.succ_mul]; ring
    rw [this]

/-- Claim C1: on a non-empty session list, `length`-fold `move_down` (resp.
`move_up`) returns the selection to its start; a single `move_down` advances
by one modulo the length, wrapping from the last entry to index 0, and
`move_up` at index 0 wraps to the last entry; on a two-element list one
`move_down` from index 0 selects index 1. -/
theorem move_selection_wraparound (ss : List String) (inp : Option String)
    (i : Nat) (hne : ss ≠ []) (hi : i < ss.length) :
    (App.move_down^[ss.length] ⟨ss, ⟨some i⟩, inp⟩).list_state.selected = some i
    ∧ (App.move_up^[ss.length] ⟨ss, ⟨some i⟩, inp⟩).list_state.selected = some i
    ∧ (App.move_down ⟨ss, ⟨some i⟩, inp⟩).list_state.selected
        = some ((i + 1) % ss.length)
    ∧ (i + 1 = ss.length →
        (App.move_down ⟨ss, ⟨some i⟩, inp⟩).list_state.selected = some 0)
    ∧ (i = 0 →
        (App.move_up ⟨ss, ⟨some i⟩, inp⟩).list_state.selected
          = some (ss.length - 1))
    ∧ (∀ a b : String, ss = [a, b] →
        (App.move_down ⟨ss, ⟨some 0⟩, inp⟩).list_state.selected = some 1) := by
  have hn : 0 < ss.length := List.length_pos.mpr hne
  refine ⟨?_, ?_, ?_, fun hlast => ?_, fun h0 => ?_, fun a b hab => ?_⟩
  · obtain ⟨-, -, s3⟩ :=
      move_down_iter ss.length ⟨ss, ⟨some i⟩, inp⟩ i rfl hi
    rw [s3]
    show some ((i + ss.length) % ss.length) = some i
    rw [Nat.add_mod_right, Nat.mod_eq_of_lt hi]
  · obtain ⟨-, -, s3⟩ :=
      move_up_iter ss.length ⟨ss, ⟨some i⟩, inp⟩ i rfl hi
    rw [s3]
    show some ((i + ss.length * (ss.length - 1)) % ss.length) = some i
    rw [Nat.add_mul_mod_self_left, Nat.mod_eq_of_lt hi]
  · rw [move_down_at ⟨ss, ⟨some i⟩, inp⟩ i rfl hi]
  · rw [move_down_at ⟨ss, ⟨some i⟩, inp⟩ i rfl hi]
    show some ((i + 1) % ss.length) = some 0
    rw [hlast, Nat.mod_self]
  · rw [move_up_at ⟨ss, ⟨some i⟩, inp⟩ i rfl hi]
    show some ((i + (ss.length - 1)) % ss.length) = some (ss.length - 1)
    rw [h0, Nat.zero_add, Nat.mod_eq_of_lt (Nat.sub_lt hn Nat.one_pos)]
  · subst hab
    rw [move_down_at ⟨[a, b], ⟨some 0⟩, inp⟩ 0 rfl (by simp)]
    rfl

/-- Witness for `move_selection_wraparound` on the list ["a", "b"] starting
at index 0: two `move_down`s return to 0, one reaches 1. -/
theorem move_selection_wraparound_witness :
    (App.move_down^[2] ⟨["a", "b"], ⟨some 0⟩, none⟩).list_state.selected = some 0
    ∧ (App.move_down ⟨["a", "b"], ⟨some 0⟩, none⟩).list_state.selected = some 1 :=
  ⟨(move_selection_wraparound ["a", "b"] none 0 (by decide) (by decide)).1,
   (move_selection_wraparound ["a", "b"] none 0 (by decide) (by decide)).2.2.2.2.2
     "a" "b" rfl⟩

/-- Counterexample to claim C7: a run of `zellij list-sessions` that exits
with status 1 but prints "foo" does NOT yield the empty session list — the
source never inspects the exit status. -/
theorem get_sessions_status_counterexample :
    get_sessions (some ⟨1, "foo\n"⟩) = ["foo"]
    ∧ (get_sessions (some ⟨1, "foo\n"⟩)).length = 1 := by
  constructor <;> decide

/-- Claim C7 (amended): the result of `get_sessions` is independent of the
exit status; only a failure to spawn the command yields the empty list; every
returned line is non-empty; stdout is split into trimmed non-empty lines. -/
theorem get_sessions_soft_failure :
    (∀ (st st' : Int) (s : String),
      get_sessions (some ⟨st, s⟩) = get_sessions (some ⟨st', s⟩))
    ∧ get_sessions none = []
    ∧ (∀ res, (get_sessions res).all (fun x => !(x == "")) = true)
    ∧ get_sessions (some ⟨0, "  alpha  \n\n beta\n"⟩) = ["alpha", "beta"] := by
  refine ⟨fun st st' s => rfl, rfl, fun res => ?_, by decide⟩
  cases res with
  | none => rfl
  | some out =>
    simp only [get_sessions, List.all_eq_true]
    intro x hx
    simp only [List.mem_map, List.mem_filter] at hx
    obtain ⟨l, ⟨-, hne⟩, rfl⟩ := hx
    simp only [Bool.not_eq_true', beq_eq_false_iff_ne, ne_eq]
    intro hmk
    exact of_decide_eq_true hne (congrArg String.data hmk)

/-- Inside the loop, no teardown effect is ever emitted: an error trace out
of `loopT` consists of the accumulated effects plus draw frames only. -/
theorem loopT_error_safe (ticks : List Tick) :
    ∀ (acc : List Eff) (app : App) (tr : List Eff),
      (∀ e ∈ acc, e ≠ Eff.disableRaw ∧ e ≠ Eff.leaveAltScreen) →
      loopT acc app ticks = some (.error tr) →
      ∀ e ∈ tr, e ≠ Eff.disableRaw ∧ e ≠ Eff.leaveAltScreen := by
  induction ticks with
  | nil =>
    intro acc app tr hacc h
    simp [loopT] at h
  | cons t ts ih =>
    intro acc app tr hacc h
    have hdraw : ∀ e ∈ acc ++ [Eff.drawFrame],
        e ≠ Eff.disableRaw ∧ e ≠ Eff.leaveAltScreen := by
      intro e he
      rcases List.mem_append.mp he with h1 | h2
      · exact hacc e h1
      · simp at h2
        subst h2
        exact ⟨by decide, by decide⟩
    cases t with
    | drawErr =>
      simp only [loopT] at h
      obtain rfl : acc = tr := by simpa using h
      exact hacc
    | pollErr =>
      simp only [loopT] at h
      obtain rfl : acc ++ [Eff.drawFrame] = tr := by simpa using h
      exact hdraw
    | readErr =>
      simp only [loopT] at h
      obtain rfl : acc ++ [Eff.drawFrame] = tr := by simpa using h
      exact hdraw
    | pollTimeout =>
      simp only [loopT] at h
      exact ih _ _ _ hdraw h
    | ev e =>
      cases e with
      | Key k =>
        cases hs : step app k with
        | inl a =>
          simp only [loopT, hs] at h
          exact ih _ _ _ hdraw h
        | inr x =>
          simp only [loopT, hs] at h
          simp at h
      | Resize =>
        simp only [loopT] at h
        exact ih _ _ _ hdraw h
      | OtherEvent =>
        simp only [loopT] at h
        exact ih _ _ _ hdraw h

/-- Claim C8 (amended): every successful exit of `run_tui` performs the
teardown (disable raw mode, leave alternate screen) before returning, but on
the error exits (draw, poll or read failing, propagated by `?`) the teardown
is skipped. -/
theorem run_tui_teardown :
    (∀ (ss : List String) (ticks : List Tick) (a : ExitAction) (tr : List Eff),
      run_tui_traced ss ticks = some (.ok (a, tr)) →
      Eff.disableRaw ∈ tr ∧ Eff.leaveAltScreen ∈ tr)
    ∧ (∀ (ss : List String) (ticks : List Tick) (tr : List Eff),
      run_tui_traced ss ticks = some (.error tr) →
      Eff.disableRaw ∉ tr ∧ Eff.leaveAltScreen ∉ tr) := by
  constructor
  · intro ss ticks a tr h
    simp only [run_tui_traced] at h
    split at h
    · cases hl : loopT [Eff.enableRaw, Eff.enterAltScreen] (App.new ss) ticks with
      | none => rw [hl] at h; simp at h
      | some r =>
        rw [hl] at h
        cases r with
        | error tr' => simp at h
        | ok p =>
          obtain ⟨a', tr'⟩ := p
          simp only [Option.some.injEq, Except.ok.injEq, Prod.mk.injEq] at h
          obtain ⟨-, h2⟩ := h
          rw [← h2]
          constructor <;> simp
    · simp only [Option.some.injEq, Except.ok.injEq, Prod.mk.injEq] at h
      obtain ⟨-, h2⟩ := h
      rw [← h2]
      constructor <;> simp
  · intro ss ticks tr h
    simp only [run_tui_traced] at h
    split at h
    · cases hl : loopT [Eff.enableRaw, Eff.enterAltScreen] (App.new ss) ticks with
      | none => rw [hl] at h; simp at h
      | some r =>
        rw [hl] at h
        cases r with
        | ok p => obtain ⟨a', tr'⟩ := p; simp at h
        | error tr' =>
          simp only [Option.some.injEq, Except.error.injEq] at h
          subst h
          have hsafe :=
            loopT_error_safe ticks [Eff.enableRaw, Eff.enterAltScreen]
              (App.new ss) tr'
              (by intro e he; fin_cases he <;> exact ⟨by decide, by decide⟩) hl
          constructor
          · intro hm; exact (hsafe _ hm).1 rfl
          · intro hm; exact (hsafe _ hm).2 rfl
    · simp at h

/-- Counterexample to claim C8: a failing draw on the very first iteration
makes `run_tui` return the error with only the setup effects performed — the
teardown effects never run on this exit path. -/
theorem run_tui_teardown_counterexample :
    run_tui_traced ["a"] [Tick.drawErr]
      = some (.error [Eff.enableRaw, Eff.enterAltScreen])
    ∧ [Eff.enableRaw, Eff.enterAltScreen].contains Eff.disableRaw = false
    ∧ [Eff.enableRaw, Eff.enterAltScreen].contains Eff.leaveAltScreen = false :=
  ⟨rfl, rfl, rfl⟩

/-- Witness for `run_tui_teardown`: a quit run performs teardown; the
failing-draw run does not. -/
theorem run_tui_teardown_witness :
    (Eff.disableRaw ∈ [Eff.enableRaw, Eff.enterAltScreen, Eff.drawFrame,
        Eff.disableRaw, Eff.leaveAltScreen]
      ∧ Eff.leaveAltScreen ∈ [Eff.enableRaw, Eff.enterAltScreen, Eff.drawFrame,
        Eff.disableRaw, Eff.leaveAltScreen])
    ∧ (Eff.disableRaw ∉ [Eff.enableRaw, Eff.enterAltScreen]
      ∧ Eff.leaveAltScreen ∉ [Eff.enableRaw, Eff.enterAltScreen]) :=
  ⟨run_tui_teardown.1 ["a"] [Tick.ev (.Key .Esc)] .Quit
      [Eff.enableRaw, Eff.enterAltScreen, Eff.drawFrame,
       Eff.disableRaw, Eff.leaveAltScreen] rfl,
   run_tui_teardown.2 ["a"] [Tick.drawErr] [Eff.enableRaw, Eff.enterAltScreen] rfl⟩

/-- A character admitted into the buffer is never whitespace. -/
theorem valid_not_whitespace (c : Char) (h : isValidSessionChar c = true) :
    c.isWhitespace = false := by
  cases hw : c.isWhitespace
  · rfl
  · exfalso
    have hc : ((c = ' ' ∨ c = '\t') ∨ c = '\x0d') ∨ c = '\n' := by
      simpa [Char.isWhitespace] using hw
    rcases hc with ((rfl | rfl) | rfl) | rfl <;> exact absurd h (by decide)

/-- `dropWhile` is the identity on a list none of whose elements satisfy the
predicate. -/
theorem dropWhile_eq_self_of_none (p : Char → Bool) (l : List Char)
    (h : ∀ c ∈ l, p c = false) : l.dropWhile p = l := by
  cases l with
  | nil => rfl
  | cons c cs => simp [List.dropWhile_cons, h c (List.mem_cons_self c cs)]

/-- Rust `trim` is the identity on a list with no whitespace characters. -/
theorem rustTrim_eq_self (l : List Char)
    (h : ∀ c ∈ l, c.isWhitespace = false) : rustTrim l = l := by
  unfold rustTrim trimLeftChars trimRightChars
  rw [dropWhile_eq_self_of_none _ _ h]
  rw [dropWhile_eq_self_of_none _ _
    (by intro c hc; exact h c (List.mem_reverse.mp hc))]
  exact List.reverse_reverse l

/-- Rust `trim` is the identity on a buffer of validated characters. -/
theorem strTrim_eq_self (b : String)
    (h : b.data.all isValidSessionChar = true) : strTrim b = b := by
  have h' : ∀ c ∈ b.data, c.isWhitespace = false := by
    intro c hc
    exact valid_not_whitespace c (List.all_eq_true.mp h c hc)
  show (⟨rustTrim b.data⟩ : String) = b
  rw [rustTrim_eq_self b.data h']

/-- `step` keeps the buffer invariant: any continuing transition out of a
state with a validated (or absent) buffer lands in such a state again. -/
theorem step_inputOk (app : App) (k : KeyCode) (a : App)
    (hok : inputOk app = true) (h : step app k = .inl a) : inputOk a = true := by
  cases hin : app.new_session_input with
  | some buf =>
    have hbuf : buf.data.all isValidSessionChar = true := by
      simpa [inputOk, hin] using hok
    cases k with
    | Enter =>
      simp only [step, hin] at h
      split at h
      · cases h; simp [inputOk]
      · cases h
    | Esc => simp only [step, hin] at h; cases h; simp [inputOk]
    | Backspace =>
      simp only [step, hin] at h
      cases h
      show (buf.data.dropLast).all isValidSessionChar = true
      rw [List.all_eq_true] at hbuf ⊢
      intro x hx
      exact hbuf x (List.dropLast_subset _ hx)
    | Char c =>
      simp only [step, hin] at h
      split at h
      · rename_i hv
        cases h
        show (buf.data ++ [c]).all isValidSessionChar = true
        simp [List.all_append, hbuf, List.all_eq_true.mp hbuf, hv]
      · cases h; simpa [inputOk, hin] using hok
    | Up => simp only [step, hin] at h; cases h; simpa [inputOk, hin] using hok
    | Down => simp only [step, hin] at h; cases h; simpa [inputOk, hin] using hok
    | OtherKey =>
      simp only [step, hin] at h; cases h; simpa [inputOk, hin] using hok
  | none =>
    have hmu : inputOk app.move_up = true := by
      have : (App.move_up app).new_session_input = app.new_session_input := by
        simp only [App.move_up]; split <;> simp
      simp [inputOk, this, hin]
    have hmd : inputOk app.move_down = true := by
      have : (App.move_down app).new_session_input = app.new_session_input := by
        simp only [App.move_down]; split <;> simp
      simp [inputOk, this, hin]
    cases k with
    | Esc => simp only [step, hin] at h; cases h
    | Up => simp only [step, hin] at h; cases h; exact hmu
    | Down => simp only [step, hin] at h; cases h; exact hmd
    | Backspace =>
      simp only [step, hin] at h; cases h; simpa [inputOk, hin] using hok
    | OtherKey =>
      simp only [step, hin] at h; cases h; simpa [inputOk, hin] using hok
    | Enter =>
      simp only [step, hin] at h
      cases hss : app.selected_session with
      | some name => rw [hss] at h; cases h
      | none => rw [hss] at h; cases h; simpa [inputOk, hin] using hok
    | Char c =>
      simp only [step, hin] at h
      split at h
      · cases h
      · split at h
        · cases h; exact hmu
        · split at h
          · cases h; exact hmd
          · split at h
            · cases hss : app.selected_session with
              | some name => rw [hss] at h; cases h
              | none => rw [hss] at h; cases h; simpa [inputOk, hin] using hok
            · split at h
              · cases h; simp [inputOk]
              · cases h; simpa [inputOk, hin] using hok

/-- The buffer invariant holds along any sequence of key events. -/
theorem stepKeys_inputOk (keys : List KeyCode) :
    ∀ app : App, inputOk app = true → inputOk (stepKeys app keys) = true := by
  induction keys with
  | nil => intro app h; exact h
  | cons k ks ih =>
    intro app h
    simp only [stepKeys]
    cases hs : step app k with
    | inl a => exact ih a (step_inputOk app k a h hs)
    | inr x => exact h

/-- Claim C10: from `begin_new_session_entry`'s empty buffer, every state
reachable by key events has a buffer of validated characters only (never
whitespace), Rust `trim` is the identity on such a buffer, and the
`NewSession` name produced by Enter is the buffer exactly as typed. -/
theorem buffer_invariant :
    (∀ (keys : List KeyCode) (app : App),
      inputOk app = true → inputOk (stepKeys app keys) = true)
    ∧ (∀ b : String, b.data.all isValidSessionChar = true → strTrim b = b)
    ∧ (∀ (app : App) (b : String), app.new_session_input = some b →
        b.data.all isValidSessionChar = true → b ≠ "" →
        step app .Enter = .inr (.NewSession (some b))) := by
  refine ⟨fun keys app h => stepKeys_inputOk keys app h, strTrim_eq_self, ?_⟩
  intro app b hin hall hne
  rw [step_input_eq app b .Enter hin, strTrim_eq_self b hall]
  simp [hne]

/-- Witness for `buffer_invariant`: typing a, !, b from the fresh input
state leaves a validated buffer, and Enter on buffer "ab" yields exactly
`NewSession (some "ab")`. -/
theorem buffer_invariant_witness :
    inputOk (stepKeys ⟨["s"], ⟨some 0⟩, some ""⟩
      [.Char 'a', .Char '!', .Char 'b']) = true
    ∧ step ⟨["s"], ⟨some 0⟩, some "ab"⟩ .Enter
        = .inr (.NewSession (some "ab")) :=
  ⟨buffer_invariant.1 [.Char 'a', .Char '!', .Char 'b']
      ⟨["s"], ⟨some 0⟩, some ""⟩ (by decide),
   buffer_invariant.2.2 ⟨["s"], ⟨some 0⟩, some "ab"⟩ "ab" rfl
      (by decide) (by decide)⟩

/-- `dropWhile` removes some prefix: its result is a `drop`. -/
theorem dropWhile_eq_drop (p : Char → Bool) :
    ∀ l : List Char, ∃ k, l.dropWhile p = l.drop k := by
  intro l
  induction l with
  | nil => exact ⟨0, rfl⟩
  | cons c cs ih =>
    cases hp : p c
    · exact ⟨0, by simp [List.dropWhile_cons, hp]⟩
    · obtain ⟨k, hk⟩ := ih
      exact ⟨k + 1, by simp [List.dropWhile_cons, hp, hk]⟩

/-- `escOk` is inherited by suffixes. -/
theorem escOk_drop (l : List Char) (k : Nat) (h : escOk l = true) :
    escOk (l.drop k) = true := by
  simp only [escOk, List.all_eq_true, List.mem_range] at h ⊢
  intro i hi
  rw [List.drop_drop]
  have hik : k + i < l.length := by
    rw [List.length_drop] at hi
    omega
  exact h (k + i) hik

/-- What a successful match of the ANSI regex at the head looks like. -/
theorem csiTail_some (l r : List Char) (h : csiTail l = some r) :
    ∃ rest x, l = '\x1B' :: '[' :: rest
      ∧ rest.dropWhile isCsiParam = x :: r ∧ (x = 'm' ∨ x = 'K') := by
  rcases l with _ | ⟨e, _ | ⟨b, rest⟩⟩
  · simp [csiTail] at h
  · simp [csiTail] at h
  · simp only [csiTail] at h
    split at h
    · rename_i hcond
      rw [Bool.and_eq_true] at hcond
      obtain ⟨he, hb⟩ := hcond
      have he' : e = '\x1B' := by simpa using he
      have hb' : b = '[' := by simpa using hb
      subst he'
      subst hb'
      cases hd : rest.dropWhile isCsiParam with
      | nil => rw [hd] at h; simp at h
      | cons x r2 =>
        rw [hd] at h
        have h' : (if x = 'm' || x = 'K' then some r2 else none) = some r := h
        split at h'
        · rename_i hx
          cases h'
          exact ⟨rest, x, rfl, hd, by simpa using hx⟩
        · cases h'
    · cases h

/-- The match can only start at an escape character. -/
theorem csiTail_none_cons (c : Char) (cs : List Char) (h : c ≠ '\x1B') :
    csiTail (c :: cs) = none := by
  cases cs with
  | nil => rfl
  | cons b t => simp [csiTail, h]

/-- A match consumes at least the three fixed characters. -/
theorem csiTail_some_length (l r : List Char) (h : csiTail l = some r) :
    r.length + 3 ≤ l.length := by
  obtain ⟨rest, x, rfl, hd, -⟩ := csiTail_some l r h
  have h1 : (x :: r).length ≤ rest.length := by
    rw [← hd]
    exact (List.dropWhile_sublist isCsiParam).length_le
  simp at h1 ⊢
  omega

/-- The remainder after a match is a suffix of the input. -/
theorem csiTail_some_drop (l r : List Char) (h : csiTail l = some r) :
    ∃ k, r = l.drop k := by
  obtain ⟨rest, x, rfl, hd, -⟩ := csiTail_some l r h
  obtain ⟨k, hk⟩ := dropWhile_eq_drop isCsiParam rest
  have hxr : x :: r = rest.drop k := by rw [← hd, hk]
  refine ⟨k + 3, ?_⟩
  have hr : r = rest.drop (k + 1) := by
    rw [← List.tail_drop, ← hxr]
    rfl
  rw [hr]
  rfl

/-- If every escape in the input begins a complete ANSI sequence, the
stripped output contains no escape character at all. -/
theorem stripGo_no_esc :
    ∀ (fuel : Nat) (l : List Char), l.length ≤ fuel → escOk l = true →
      '\x1B' ∉ stripGo fuel l := by
  intro fuel
  induction fuel with
  | zero =>
    intro l hl _
    cases l with
    | nil => simp [stripGo]
    | cons c cs => simp at hl
  | succ fuel ih =>
    intro l hl hok
    cases l with
    | nil => simp [stripGo]
    | cons c cs =>
      cases hct : csiTail (c :: cs) with
      | some rest =>
        have hred : stripGo (fuel + 1) (c :: cs) = stripGo fuel rest := by
          simp [stripGo, hct]
        rw [hred]
        have hlen := csiTail_some_length _ _ hct
        obtain ⟨k, hk⟩ := csiTail_some_drop _ _ hct
        refine ih rest (by simp at hlen hl ⊢; omega) ?_
        rw [hk]
        exact escOk_drop _ _ hok
      | none =>
        have hcne : c ≠ '\x1B' := by
          intro hc
          subst hc
          have h0 := List.all_eq_true.mp hok 0 (by simp [List.mem_range])
          simp [escCheck, hct] at h0
        have hred : stripGo (fuel + 1) (c :: cs) = c :: stripGo fuel cs := by
          simp [stripGo, hct]
        rw [hred]
        intro hmem
        rcases List.mem_cons.mp hmem with h1 | h2
        · exact hcne h1.symm
        · have hcs : escOk cs = true := by
            simpa using escOk_drop (c :: cs) 1 hok
          have hfl : cs.length ≤ fuel := by simp at hl; omega
          exact ih cs hfl hcs h2

/-- Stripping is the identity on escape-free input (any fuel). -/
theorem stripGo_id_of_no_esc :
    ∀ (fuel : Nat) (l : List Char), '\x1B' ∉ l → stripGo fuel l = l := by
  intro fuel
  induction fuel with
  | zero =>
    intro l h
    cases l with
    | nil => rfl
    | cons c cs => rfl
  | succ fuel ih =>
    intro l h
    cases l with
    | nil => rfl
    | cons c cs =>
      have hcne : c ≠ '\x1B' := fun hc => h (by simp [hc])
      have hct : csiTail (c :: cs) = none := csiTail_none_cons c cs hcne
      simp only [stripGo, hct, List.cons.injEq, true_and]
      exact ih cs (fun hm => h (List.mem_cons_of_mem _ hm))

/-- `takeBeforeBracket` only returns characters of its input. -/
theorem mem_takeBeforeBracket : ∀ (l : List Char) (x : Char),
    x ∈ takeBeforeBracket l → x ∈ l := by
  intro l
  induction l with
  | nil => intro x hx; simpa [takeBeforeBracket] using hx
  | cons c cs ih =>
    intro x hx
    cases cs with
    | nil => simpa [takeBeforeBracket] using hx
    | cons d t =>
      simp only [takeBeforeBracket] at hx
      split at hx
      · simp at hx
      · rcases List.mem_cons.mp hx with h1 | h2
        · simp [h1]
        · exact List.mem_cons_of_mem _ (ih x h2)

/-- Rust `trim` only returns characters of its input. -/
theorem mem_rustTrim (l : List Char) (x : Char) (h : x ∈ rustTrim l) :
    x ∈ l := by
  unfold rustTrim trimRightChars trimLeftChars at h
  obtain ⟨k1, hk1⟩ := dropWhile_eq_drop Char.isWhitespace l
  rw [hk1] at h
  obtain ⟨k2, hk2⟩ := dropWhile_eq_drop Char.isWhitespace (l.drop k1).reverse
  rw [hk2] at h
  have h1 : x ∈ (l.drop k1).reverse.drop k2 := List.mem_reverse.mp h
  have h2 : x ∈ (l.drop k1).reverse := List.drop_subset _ _ h1
  have h3 : x ∈ l.drop k1 := List.mem_reverse.mp h2
  exact List.drop_subset _ _ h3

/-- A `" ["` occurrence in the tail is one in the whole list. -/
theorem containsSB_cons (c : Char) (cs : List Char)
    (h : containsSB cs = true) : containsSB (c :: cs) = true := by
  cases cs with
  | nil => simp [containsSB] at h
  | cons d t => simp [containsSB, h]

/-- A `" ["` occurrence survives appending on the right. -/
theorem containsSB_append (xs ys : List Char) (h : containsSB xs = true) :
    containsSB (xs ++ ys) = true := by
  induction xs with
  | nil => simp [containsSB] at h
  | cons c cs ih =>
    cases cs with
    | nil => simp [containsSB] at h
    | cons d t =>
      simp only [containsSB, Bool.or_eq_true] at h
      rcases h with h1 | h2
      · show containsSB (c :: d :: (t ++ ys)) = true
        simp [containsSB, h1]
      · exact containsSB_cons c _ (ih h2)

/-- A `" ["` occurrence in a `take` is one in the whole list. -/
theorem containsSB_take (l : List Char) (n : Nat)
    (h : containsSB (l.take n) = true) : containsSB l = true := by
  have h2 := containsSB_append (l.take n) (l.drop n) h
  rwa [List.take_append_drop] at h2

/-- A `" ["` occurrence after `dropWhile` is one in the whole list. -/
theorem containsSB_dropWhile (p : Char → Bool) :
    ∀ l : List Char, containsSB (l.dropWhile p) = true →
      containsSB l = true := by
  intro l
  induction l with
  | nil => intro h; simpa using h
  | cons c cs ih =>
    intro h
    cases hp : p c
    · simpa [List.dropWhile_cons, hp] using h
    · rw [List.dropWhile_cons, hp] at h
      simp only [if_true] at h
      exact containsSB_cons c _ (ih h)

/-- A `" ["` occurrence after right-trimming is one in the whole list. -/
theorem containsSB_trimRight (l : List Char)
    (h : containsSB (trimRightChars l) = true) : containsSB l = true := by
  unfold trimRightChars at h
  obtain ⟨k, hk⟩ := dropWhile_eq_drop Char.isWhitespace l.reverse
  rw [hk, List.reverse_drop, List.reverse_reverse] at h
  exact containsSB_take _ _ h

/-- `takeBeforeBracket` preserves the head character when non-empty. -/
theorem tbb_head_eq (d : Char) (cs : List Char) (e : Char) (es : List Char)
    (h : takeBeforeBracket (d :: cs) = e :: es) : e = d := by
  cases cs with
  | nil =>
    simp only [takeBeforeBracket, List.cons.injEq] at h
    exact h.1.symm
  | cons b t =>
    simp only [takeBeforeBracket] at h
    split at h
    · cases h
    · cases h; rfl

/-- The prefix cut at the first `" ["` contains no `" ["` occurrence. -/
theorem containsSB_tbb (l : List Char) :
    containsSB (takeBeforeBracket l) = false := by
  induction l with
  | nil => rfl
  | cons c cs ih =>
    cases cs with
    | nil => rfl
    | cons d t =>
      simp only [takeBeforeBracket]
      split
      · rfl
      · rename_i hcond
        cases he : takeBeforeBracket (d :: t) with
        | nil => rfl
        | cons e es =>
          have hed : e = d := tbb_head_eq d t e es he
          have h2 : containsSB (e :: es) = true → False := by
            intro hx
            rw [← he, ih] at hx
            cases hx
          have h1 : (decide (c = ' ') && decide (e = '[')) = false := by
            rw [hed]
            simpa using hcond
          have h3 : containsSB (e :: es) = false := by
            cases hcs : containsSB (e :: es)
            · rfl
            · exact absurd hcs (fun hx => h2 hx)
          simp only [containsSB, h1, Bool.false_or, h3]

/-- An escape-free list contains no ANSI match anywhere. -/
theorem hasCsi_false_of_no_esc (l : List Char) (h : '\x1B' ∉ l) :
    hasCsi l = false := by
  cases hc : hasCsi l
  · rfl
  · exfalso
    simp only [hasCsi, List.any_eq_true, List.mem_range] at hc
    obtain ⟨i, -, hi⟩ := hc
    rw [Option.isSome_iff_exists] at hi
    obtain ⟨r, hr⟩ := hi
    obtain ⟨rest, x, heq, -, -⟩ := csiTail_some _ _ hr
    apply h
    have hm : '\x1B' ∈ l.drop i := by rw [heq]; simp
    exact List.drop_subset _ _ hm

/-- Counterexample to claim C6: normalization is a single left-to-right
pass, so deleting one ANSI sequence can join two fragments into a new one —
the canonical form of "\x1B[\x1B[0m0m" is "\x1B[0m", which still matches the
ANSI regex; likewise stripping can reveal a `" ["` that the bracket cut,
done first, never saw. -/
theorem parse_name_counterexample :
    hasCsi (parse_name "\x1B[\x1B[0m0m".data) = true
    ∧ containsSB (parse_name "a \x1B[0m[Created 2 mins ago]".data) = true := by
  constructor <;> decide

/-- Claim C6 (amended): the spec's example normalizes to exactly "work"; when
every escape character in the trimmed pre-bracket part begins a complete ANSI
sequence, the canonical output contains no escape character and hence no ANSI
control sequence; when the input contains no escape character at all, the
canonical output contains no `" ["` (no bracketed suffix). -/
theorem parse_name_normalizes :
    parse_name "\x1B[1mwork\x1B[0m [Created 2 mins ago]".data = "work".data
    ∧ (∀ l : List Char, escOk (rustTrim (takeBeforeBracket l)) = true →
        '\x1B' ∉ parse_name l ∧ hasCsi (parse_name l) = false)
    ∧ (∀ l : List Char, '\x1B' ∉ l → containsSB (parse_name l) = false) := by
  refine ⟨by decide, fun l h => ?_, fun l h => ?_⟩
  · have h1 : '\x1B' ∉ parse_name l :=
      stripGo_no_esc (rustTrim (takeBeforeBracket l)).length
        (rustTrim (takeBeforeBracket l)) le_rfl h
    exact ⟨h1, hasCsi_false_of_no_esc _ h1⟩
  · have hnm : '\x1B' ∉ rustTrim (takeBeforeBracket l) := fun hm =>
      h (mem_takeBeforeBracket l _ (mem_rustTrim _ _ hm))
    have hid : parse_name l = rustTrim (takeBeforeBracket l) :=
      stripGo_id_of_no_esc _ _ hnm
    rw [hid]
    cases hsb : containsSB (rustTrim (takeBeforeBracket l))
    · rfl
    · exfalso
      have h2 : containsSB (trimLeftChars (takeBeforeBracket l)) = true :=
        containsSB_trimRight _ hsb
      have h3 : containsSB (takeBeforeBracket l) = true :=
        containsSB_dropWhile _ _ h2
      rw [containsSB_tbb l] at h3
      cases h3

/-- Witness for `parse_name_normalizes`: the spec's decorated input has
well-formed escapes and yields an escape-free canonical name; an undecorated
name keeps no bracketed suffix. -/
theorem parse_name_normalizes_witness :
    '\x1B' ∉ parse_name "\x1B[1mwork\x1B[0m [Created 2 mins ago]".data
    ∧ containsSB (parse_name "plain-name".data) = false :=
  ⟨(parse_name_normalizes.2.1 "\x1B[1mwork\x1B[0m [Created 2 mins ago]".data
      (by decide)).1,
   parse_name_normalizes.2.2 "plain-name".data (by decide)⟩

end Theorems

end ZellijPicker
